import Mathlib

/-!
# LidarSerializer: header view and serialization of lidar measurements

A shallow embedding of `LibCarla/source/carla/sensor/s11n/LidarSerializer.h`.

* Memory is a list of bytes; a `const uint32_t *` is the memory found from the
  pointer onwards, and `p[i]` loads the four bytes at byte offsets `4*i .. 4*i+3`.
* Every load is bounds-checked and recorded: an accessor returns the byte offsets
  it loaded together with its value, or the fault it ran into (a load outside
  the buffer, which is undefined behaviour in C++, or a failed `DEBUG_ASSERT`).
* Everything the C++ text leaves to the implementation (byte order, width of
  `size_t`, whether `DEBUG_ASSERT` is compiled in, underlying type of the `Index`
  enumeration) is a field of `Target`.
-/

namespace carla

/-- One byte of memory. -/
abbrev Byte := Fin 256

/-- Implementation-defined parameters of a build of the library. -/
structure Target where
  /-- Byte order of the object representation of `uint32_t`. -/
  bigEndian : Bool
  /-- Whether `DEBUG_ASSERT` is compiled in (debug build) or expands to nothing. -/
  debug : Bool
  /-- Width in bits of `size_t`. -/
  sizeBits : Nat
  /-- Width in bits of the underlying type of `data::LidarData::Index`, whose
  declaration lives in `carla/sensor/data/LidarData.h`. -/
  indexBits : Nat
  deriving DecidableEq, Repr

/-- The usual 64-bit little-endian debug build, with `Index` declared over `size_t`. -/
def Target.x86_64 : Target := ⟨false, true, 64, 64⟩

/-- Width of the type in which `uint32_t + Index` is evaluated: after the usual
arithmetic conversions, the wider of `uint32_t` and the underlying type of `Index`. -/
def Target.sumBits (t : Target) : Nat := max 32 t.indexBits

/-- Width of the type in which `Index + size_t` is evaluated. -/
def Target.idxBits (t : Target) : Nat := max t.sizeBits t.indexBits

/-- Why an accessor did not return a value. -/
inductive Fault where
  /-- A load outside the buffer: undefined behaviour in the C++ program. -/
  | outOfBounds
  /-- A `DEBUG_ASSERT` whose condition is false. -/
  | assertion
  deriving DecidableEq, Repr

deriving instance DecidableEq for Except

/-- Outcome of running code that loads from memory: the byte offsets loaded, in
order, and the value returned or the fault that stopped the run. -/
structure Access (α : Type) where
  reads : List Nat
  result : Except Fault α

namespace Access

/-- Return a value without touching memory. -/
def ret {α : Type} (a : α) : Access α := ⟨[], .ok a⟩

/-- Stop with a fault. -/
def fail {α : Type} (f : Fault) : Access α := ⟨[], .error f⟩

/-- Sequencing: the continuation runs only if the first part returned a value. -/
def andThen {α β : Type} (x : Access α) (k : α → Access β) : Access β :=
  match x.result with
  | .ok a => ⟨x.reads ++ (k a).reads, (k a).result⟩
  | .error f => ⟨x.reads, .error f⟩

instance : Monad Access where
  pure := ret
  bind := andThen

end Access

/-- `DEBUG_ASSERT(cond)` from `carla/Debug.h`: checked in debug builds only. -/
def DEBUG_ASSERT (t : Target) (cond : Bool) : Access Unit :=
  if t.debug && !cond then Access.fail .assertion else Access.ret ()

/-- Load the byte at offset `off` of `mem`. -/
def loadByte (mem : List Byte) (off : Nat) : Access Byte :=
  ⟨[off], match mem[off]? with
          | some b => .ok b
          | none => .error .outOfBounds⟩

/-- Value of a `uint32_t` whose object representation is `b0 b1 b2 b3`, in address order. -/
def decodeWord (t : Target) (b0 b1 b2 b3 : Byte) : Nat :=
  if t.bigEndian then
    b3.val + 256 * b2.val + 65536 * b1.val + 16777216 * b0.val
  else
    b0.val + 256 * b1.val + 65536 * b2.val + 16777216 * b3.val

/-- The byte `n mod 256`. -/
def byteOf (n : Nat) : Byte := ⟨n % 256, Nat.mod_lt n (by decide)⟩

/-- Object representation of the `uint32_t` value `w`, in address order. -/
def encodeWord (t : Target) (w : Nat) : List Byte :=
  if t.bigEndian then
    [byteOf (w / 16777216), byteOf (w / 65536), byteOf (w / 256), byteOf w]
  else
    [byteOf w, byteOf (w / 256), byteOf (w / 65536), byteOf (w / 16777216)]

/-- Object representation of a `std::vector<uint32_t>`: its words one after the other. -/
def encodeWords (t : Target) : List Nat → List Byte
  | [] => []
  | w :: ws => encodeWord t w ++ encodeWords t ws

/-- The expression `p[i]` for `p : const uint32_t *` pointing at `mem`. -/
def loadWord (t : Target) (mem : List Byte) (i : Nat) : Access Nat := do
  let b0 ← loadByte mem (4 * i)
  let b1 ← loadByte mem (4 * i + 1)
  let b2 ← loadByte mem (4 * i + 2)
  let b3 ← loadByte mem (4 * i + 3)
  pure (decodeWord t b0 b1 b2 b3)

/-- A `float`, represented by its IEEE-754 binary32 bit pattern. -/
structure F32 where
  bits : Nat
  deriving DecidableEq, Repr

/-- Value of a normal binary32 number: sign bit, eight bits of biased exponent,
twenty-three bits of fraction. -/
def F32.value (f : F32) : ℚ :=
  (-1) ^ (f.bits / 2 ^ 31 % 2) * (1 + ((f.bits % 2 ^ 23 : Nat) : ℚ) / 2 ^ 23)
    * 2 ^ (((f.bits / 2 ^ 23 % 256 : Nat) : ℤ) - 127)

/-- Bit pattern of `90.0f`, that is `0x42B40000`. -/
def bits90 : Nat := 1119092736

namespace Index

/-- Modelled from the spec: the enumerator `data::LidarData::Index::HorizontalAngle`,
declared in `carla/sensor/data/LidarData.h`; the wire format puts the angle at offset 0. -/
def HorizontalAngle : Nat := 0

/-- Modelled from the spec: the enumerator `data::LidarData::Index::ChannelCount`,
declared in `carla/sensor/data/LidarData.h`; the wire format puts the count at offset 4. -/
def ChannelCount : Nat := 1

/-- Modelled from the spec: the enumerator `data::LidarData::Index::SIZE`,
declared in `carla/sensor/data/LidarData.h`; two fixed words precede the point counts. -/
def SIZE : Nat := 2

end Index

/-- Modelled from the spec: `RawData` (declared in `carla/sensor/RawData.h`) is an
immutable region of bytes of which `begin()` is the start. -/
structure RawData where
  bytes : List Byte
  deriving DecidableEq, Repr

/-- Start of the data. -/
def RawData.begin (data : RawData) : List Byte := data.bytes

/-- A view over the header of a Lidar measurement: it keeps the pointer `_begin`. -/
structure LidarHeaderView where
  _begin : List Byte
  deriving DecidableEq, Repr

namespace LidarHeaderView

/-- `reinterpret_cast<const float &>(_begin[Index::HorizontalAngle])`. -/
def GetHorizontalAngle (t : Target) (v : LidarHeaderView) : Access F32 := do
  let w ← loadWord t v._begin Index.HorizontalAngle
  pure ⟨w⟩

/-- `_begin[Index::ChannelCount]`. -/
def GetChannelCount (t : Target) (v : LidarHeaderView) : Access Nat :=
  loadWord t v._begin Index.ChannelCount

/-- `DEBUG_ASSERT(channel < GetChannelCount()); return _begin[Index::SIZE + channel];`
The condition of the assertion is evaluated in debug builds only. -/
def GetPointCount (t : Target) (v : LidarHeaderView) (channel : Nat) : Access Nat := do
  if t.debug then
    let n ← GetChannelCount t v
    DEBUG_ASSERT t (decide (channel < n))
  loadWord t v._begin ((Index.SIZE + channel) % 2 ^ t.idxBits)

end LidarHeaderView

/-- Modelled from the spec: `Buffer` (declared in `carla/Buffer.h`) is a growable
sequence of bytes. -/
abbrev Buffer := List Byte

/-- Modelled from the spec: `Buffer::copy_from` over a sequence of byte regions,
declared in `carla/Buffer.h`: a scatter/gather append that preserves the order of
the regions, after which the length of the buffer is its previous length plus the
lengths of the regions. -/
def Buffer.copy_from (output : Buffer) (seq : List (List Byte)) : Buffer :=
  seq.foldl (fun acc region => acc ++ region) output

namespace data

/-- Modelled from the spec: `data::LidarData` (declared in
`carla/sensor/data/LidarData.h`) exposes its header and its points as two
read-only regions of bytes. -/
structure LidarData where
  _header : List Byte
  _points : List Byte
  deriving DecidableEq, Repr

end data

namespace LidarSerializer

/-- `LidarHeaderView{reinterpret_cast<const uint32_t *>(data.begin())}`. -/
def DeserializeHeader (data : RawData) : LidarHeaderView := ⟨data.begin⟩

/-- `sizeof(uint32_t) * (View.GetChannelCount() + data::LidarData::Index::SIZE)`,
returned as a `size_t`. -/
def GetHeaderOffset (t : Target) (data : RawData) : Access Nat := do
  let View := DeserializeHeader data
  let n ← View.GetChannelCount t
  pure ((4 * ((n + Index.SIZE) % 2 ^ t.sumBits)) % 2 ^ t.sizeBits)

/-- The two regions are handed to `copy_from` in one sequence; the sensor is not used. -/
def Serialize {Sensor : Type} (_sensor : Sensor) (data : data.LidarData)
    (output : Buffer) : Buffer :=
  let seq := [data._header, data._points]
  output.copy_from seq

end LidarSerializer

/-- The unsigned integer decoded from the four bytes at byte offsets
`off .. off + 3` of `mem`, if the buffer holds them all. -/
def decodeAt (t : Target) (mem : List Byte) (off : Nat) : Option Nat :=
  match mem[off]?, mem[off + 1]?, mem[off + 2]?, mem[off + 3]? with
  | some b0, some b1, some b2, some b3 => some (decodeWord t b0 b1 b2 b3)
  | _, _, _, _ => none

/-- A value that is there, or the fault of loading outside the buffer. -/
def orOutOfBounds {α : Type} : Option α → Except Fault α
  | some a => .ok a
  | none => .error .outOfBounds

/-! ## Loads and the object representation of words -/

open LidarHeaderView LidarSerializer

theorem loadWord_result (t : Target) (mem : List Byte) (i : Nat) :
    (loadWord t mem i).result = orOutOfBounds (decodeAt t mem (4 * i)) := by
  simp only [loadWord, bind, pure, Access.andThen, loadByte, decodeAt, Access.ret]
  cases h0 : mem[4 * i]? <;> cases h1 : mem[4 * i + 1]? <;> cases h2 : mem[4 * i + 2]? <;>
    cases h3 : mem[4 * i + 3]? <;> simp [orOutOfBounds]

theorem loadWord_reads (t : Target) (mem : List Byte) (i : Nat) :
    ∀ o ∈ (loadWord t mem i).reads, 4 * i ≤ o ∧ o < 4 * i + 4 := by
  simp only [loadWord, bind, pure, Access.andThen, loadByte, Access.ret]
  cases h0 : mem[4 * i]? <;> cases h1 : mem[4 * i + 1]? <;> cases h2 : mem[4 * i + 2]? <;>
    cases h3 : mem[4 * i + 3]? <;> simp

theorem decodeWord_lt (t : Target) (b0 b1 b2 b3 : Byte) : decodeWord t b0 b1 b2 b3 < 2 ^ 32 := by
  have h0 := b0.isLt
  have h1 := b1.isLt
  have h2 := b2.isLt
  have h3 := b3.isLt
  unfold decodeWord
  split <;> omega

theorem decodeAt_lt (t : Target) (mem : List Byte) (off w : Nat)
    (h : decodeAt t mem off = some w) : w < 2 ^ 32 := by
  unfold decodeAt at h
  split at h
  · cases h
    exact decodeWord_lt _ _ _ _ _
  · cases h

theorem decodeAt_some_length (t : Target) (mem : List Byte) (off w : Nat)
    (h : decodeAt t mem off = some w) : off + 4 ≤ mem.length := by
  unfold decodeAt at h
  split at h
  · rename_i h0 h1 h2 h3
    have := (List.getElem?_eq_some.mp h3).1
    omega
  · cases h

theorem decodeAt_encodeWord (t : Target) (w : Nat) (rest : List Byte) :
    decodeAt t (encodeWord t w ++ rest) 0 = some (w % 2 ^ 32) := by
  unfold decodeAt encodeWord decodeWord
  cases t.bigEndian <;> simp [byteOf] <;> omega

theorem decodeAt_skip (t : Target) (w : Nat) (mem : List Byte) (off : Nat) :
    decodeAt t (encodeWord t w ++ mem) (off + 4) = decodeAt t mem off := by
  unfold decodeAt encodeWord
  cases t.bigEndian <;> simp

theorem length_encodeWords (t : Target) (ws : List Nat) :
    (encodeWords t ws).length = 4 * ws.length := by
  induction ws with
  | nil => rfl
  | cons w ws ih =>
    simp only [encodeWords, List.length_append, ih, List.length_cons]
    unfold encodeWord
    cases t.bigEndian <;> simp <;> omega

theorem decodeAt_encodeWords (t : Target) (ws : List Nat) (rest : List Byte) (i w : Nat)
    (h : ws[i]? = some w) :
    decodeAt t (encodeWords t ws ++ rest) (4 * i) = some (w % 2 ^ 32) := by
  induction ws generalizing i with
  | nil => simp at h
  | cons x xs ih =>
    cases i with
    | zero =>
      simp at h
      subst h
      simp only [encodeWords, List.append_assoc]
      exact decodeAt_encodeWord t x _
    | succ j =>
      simp at h
      simp only [encodeWords, List.append_assoc]
      have : 4 * (j + 1) = 4 * j + 4 := by omega
      rw [this, decodeAt_skip]
      exact ih j h



theorem Access.bind_result {α β : Type} (x : Access α) (k : α → Access β) :
    (x >>= k).result =
      match x.result with
      | .ok a => (k a).result
      | .error f => .error f := by
  simp only [bind, Access.andThen]
  cases x.result <;> rfl

theorem Access.bind_reads_of_ok {α β : Type} (x : Access α) (k : α → Access β) (a : α)
    (h : x.result = .ok a) : (x >>= k).reads = x.reads ++ (k a).reads := by
  simp only [bind, Access.andThen, h]

theorem Access.bind_reads_sub {α β : Type} (x : Access α) (k : α → Access β) (o : Nat)
    (h : o ∈ (x >>= k).reads) : o ∈ x.reads ∨ ∃ a, x.result = .ok a ∧ o ∈ (k a).reads := by
  simp only [bind, Access.andThen] at h
  cases hx : x.result with
  | error f => rw [hx] at h; exact Or.inl h
  | ok a =>
    rw [hx] at h
    simp only [List.mem_append] at h
    rcases h with h | h
    · exact Or.inl h
    · exact Or.inr ⟨a, rfl, h⟩

theorem GetChannelCount_result (t : Target) (v : LidarHeaderView) :
    (GetChannelCount t v).result = orOutOfBounds (decodeAt t v._begin 4) := by
  unfold GetChannelCount
  rw [loadWord_result]
  rfl

theorem GetChannelCount_reads (t : Target) (v : LidarHeaderView) :
    ∀ o ∈ (GetChannelCount t v).reads, 4 ≤ o ∧ o < 8 := by
  intro o ho
  have := loadWord_reads t v._begin Index.ChannelCount o ho
  simp only [Index.ChannelCount] at this
  omega

theorem GetHorizontalAngle_result (t : Target) (v : LidarHeaderView) :
    (GetHorizontalAngle t v).result =
      match decodeAt t v._begin 0 with
      | some w => .ok ⟨w⟩
      | none => .error .outOfBounds := by
  unfold GetHorizontalAngle
  rw [Access.bind_result, loadWord_result]
  simp only [Index.HorizontalAngle, Nat.mul_zero]
  cases decodeAt t v._begin 0 <;> rfl

theorem GetHorizontalAngle_reads (t : Target) (v : LidarHeaderView) :
    ∀ o ∈ (GetHorizontalAngle t v).reads, o < 4 := by
  intro o ho
  unfold GetHorizontalAngle at ho
  rcases Access.bind_reads_sub _ _ o ho with h | ⟨a, _, h⟩
  · have := loadWord_reads t v._begin Index.HorizontalAngle o h
    simp only [Index.HorizontalAngle] at this
    omega
  · simp [pure, Access.ret] at h

theorem GetHeaderOffset_result (t : Target) (data : RawData) :
    (GetHeaderOffset t data).result =
      match decodeAt t data.bytes 4 with
      | some n => .ok ((4 * ((n + 2) % 2 ^ t.sumBits)) % 2 ^ t.sizeBits)
      | none => .error .outOfBounds := by
  unfold GetHeaderOffset
  simp only [Access.bind_result, GetChannelCount_result, DeserializeHeader, RawData.begin,
    Index.SIZE]
  cases decodeAt t data.bytes 4 <;> rfl

theorem GetHeaderOffset_reads (t : Target) (data : RawData) :
    ∀ o ∈ (GetHeaderOffset t data).reads, 4 ≤ o ∧ o < 8 := by
  intro o ho
  unfold GetHeaderOffset at ho
  rcases Access.bind_reads_sub _ _ o ho with h | ⟨a, _, h⟩
  · exact GetChannelCount_reads t _ o h
  · simp [pure, Access.ret] at h

theorem GetPointCount_result_of_lt (t : Target) (v : LidarHeaderView) (c k : Nat)
    (hk : (GetChannelCount t v).result = .ok k) (hc : c < k) :
    (GetPointCount t v c).result =
      orOutOfBounds (decodeAt t v._begin (4 * ((2 + c) % 2 ^ t.idxBits))) := by
  unfold GetPointCount
  cases hd : t.debug with
  | false =>
    simp [Access.bind_result, pure, Access.ret, loadWord_result, Index.SIZE]
  | true =>
    simp [Access.bind_result, hk, DEBUG_ASSERT, hd, Nat.not_le.mpr hc, pure, Access.ret,
      loadWord_result, Index.SIZE]

theorem GetPointCount_result_of_ge (t : Target) (v : LidarHeaderView) (c k : Nat)
    (hd : t.debug = true) (hk : (GetChannelCount t v).result = .ok k) (hc : k ≤ c) :
    (GetPointCount t v c).result = .error .assertion := by
  unfold GetPointCount
  simp [Access.bind_result, hk, DEBUG_ASSERT, hd, hc, Access.fail]

theorem GetPointCount_result_of_fault (t : Target) (v : LidarHeaderView) (c : Nat) (f : Fault)
    (hd : t.debug = true) (hk : (GetChannelCount t v).result = .error f) :
    (GetPointCount t v c).result = .error f := by
  unfold GetPointCount
  simp [Access.bind_result, hk, hd]

theorem decodeAt_of_le (t : Target) (mem : List Byte) (off : Nat) (h : off + 4 ≤ mem.length) :
    ∃ w, decodeAt t mem off = some w := by
  have h0 : off < mem.length := by omega
  have h1 : off + 1 < mem.length := by omega
  have h2 : off + 2 < mem.length := by omega
  have h3 : off + 3 < mem.length := by omega
  refine ⟨decodeWord t mem[off] mem[off + 1] mem[off + 2] mem[off + 3], ?_⟩
  simp [decodeAt, List.getElem?_eq_getElem, h0, h1, h2, h3]

theorem copy_from_pair (output : Buffer) (H P : List Byte) :
    Buffer.copy_from output [H, P] = output ++ (H ++ P) := by
  simp [Buffer.copy_from]

theorem Serialize_eq {Sensor : Type} (sensor : Sensor) (M : data.LidarData) (output : Buffer) :
    Serialize sensor M output = output ++ (M._header ++ M._points) := by
  unfold Serialize
  exact copy_from_pair output M._header M._points

theorem decodeAt_none_of_lt (t : Target) (mem : List Byte) (off : Nat)
    (h : mem.length < off + 4) : decodeAt t mem off = none := by
  cases hd : decodeAt t mem off with
  | none => rfl
  | some w =>
    have := decodeAt_some_length t mem off w hd
    omega

theorem GetChannelCount_encodeWords (t : Target) (a k : Nat) (cs : List Nat) (rest : List Byte) :
    (GetChannelCount t (DeserializeHeader ⟨encodeWords t (a :: k :: cs) ++ rest⟩)).result
      = .ok (k % 2 ^ 32) := by
  rw [GetChannelCount_result]
  have := decodeAt_encodeWords t (a :: k :: cs) rest 1 k (by simp)
  simp only [DeserializeHeader, RawData.begin]
  rw [show (4 : Nat) = 4 * 1 from rfl, this]
  rfl

theorem GetHorizontalAngle_encodeWords (t : Target) (a : Nat) (ws : List Nat)
    (rest : List Byte) :
    (GetHorizontalAngle t (DeserializeHeader ⟨encodeWords t (a :: ws) ++ rest⟩)).result
      = .ok ⟨a % 2 ^ 32⟩ := by
  rw [GetHorizontalAngle_result]
  have := decodeAt_encodeWords t (a :: ws) rest 0 a (by simp)
  simp only [DeserializeHeader, RawData.begin]
  rw [show (0 : Nat) = 4 * 0 from rfl, this]

theorem GetPointCount_encodeWords (t : Target) (a k : Nat) (cs : List Nat) (rest : List Byte)
    (i c : Nat) (hc : cs[i]? = some c) (hi : i < k % 2 ^ 32) (hidx : 2 + i < 2 ^ t.idxBits) :
    (GetPointCount t (DeserializeHeader ⟨encodeWords t (a :: k :: cs) ++ rest⟩) i).result
      = .ok (c % 2 ^ 32) := by
  rw [GetPointCount_result_of_lt t _ i _ (GetChannelCount_encodeWords t a k cs rest) hi]
  have hmod : (2 + i) % 2 ^ t.idxBits = i + 2 := by
    rw [Nat.mod_eq_of_lt hidx]; omega
  rw [hmod]
  have := decodeAt_encodeWords t (a :: k :: cs) rest (i + 2) c (by simpa using hc)
  simp only [DeserializeHeader, RawData.begin]
  rw [this]
  rfl

theorem GetHeaderOffset_encodeWords (t : Target) (a k : Nat) (cs : List Nat) (rest : List Byte)
    (hsum : k % 2 ^ 32 + 2 < 2 ^ t.sumBits) (hsize : 4 * (k % 2 ^ 32 + 2) < 2 ^ t.sizeBits) :
    (GetHeaderOffset t ⟨encodeWords t (a :: k :: cs) ++ rest⟩).result
      = .ok (4 * (k % 2 ^ 32 + 2)) := by
  rw [GetHeaderOffset_result]
  have := decodeAt_encodeWords t (a :: k :: cs) rest 1 k (by simp)
  simp only [show (4 : Nat) * 1 = 4 from rfl] at this
  rw [this]
  simp only [Nat.mod_eq_of_lt hsum, Nat.mod_eq_of_lt hsize]

theorem two_pow_sizeBits_le_idx (t : Target) : 2 ^ t.sizeBits ≤ 2 ^ t.idxBits :=
  Nat.pow_le_pow_right (by decide) (Nat.le_max_left _ _)

theorem two_pow_32_le_sum (t : Target) : 2 ^ 32 ≤ 2 ^ t.sumBits :=
  Nat.pow_le_pow_right (by decide) (Nat.le_max_left _ _)

theorem Serialize_empty {Sensor : Type} (sensor : Sensor) (H P : List Byte) :
    Serialize sensor ⟨H, P⟩ [] = H ++ P := by
  rw [Serialize_eq]; rfl

theorem loadWord_reads_of_ok (t : Target) (mem : List Byte) (i w : Nat)
    (h : (loadWord t mem i).result = .ok w) :
    (loadWord t mem i).reads = [4 * i, 4 * i + 1, 4 * i + 2, 4 * i + 3] := by
  revert h
  simp only [loadWord, bind, pure, Access.andThen, loadByte, Access.ret]
  cases h0 : mem[4 * i]? <;> cases h1 : mem[4 * i + 1]? <;> cases h2 : mem[4 * i + 2]? <;>
    cases h3 : mem[4 * i + 3]? <;> simp

theorem GetChannelCount_reads_of_ok (t : Target) (v : LidarHeaderView) (k : Nat)
    (h : (GetChannelCount t v).result = .ok k) : (GetChannelCount t v).reads = [4, 5, 6, 7] := by
  unfold GetChannelCount at h ⊢
  rw [loadWord_reads_of_ok t _ _ k h]
  rfl

theorem GetHorizontalAngle_reads_of_ok (t : Target) (v : LidarHeaderView) (f : F32)
    (h : (GetHorizontalAngle t v).result = .ok f) :
    (GetHorizontalAngle t v).reads = [0, 1, 2, 3] := by
  unfold GetHorizontalAngle at h ⊢
  rw [Access.bind_result] at h
  cases hw : (loadWord t v._begin Index.HorizontalAngle).result with
  | error e => rw [hw] at h; cases h
  | ok w =>
    rw [Access.bind_reads_of_ok _ _ w hw, loadWord_reads_of_ok t _ _ w hw]
    rfl

theorem GetHeaderOffset_reads_of_ok (t : Target) (data : RawData) (n : Nat)
    (h : (GetHeaderOffset t data).result = .ok n) :
    (GetHeaderOffset t data).reads = [4, 5, 6, 7] := by
  unfold GetHeaderOffset at h ⊢
  rw [Access.bind_result] at h
  cases hw : (GetChannelCount t (DeserializeHeader data)).result with
  | error e => simp only [hw] at h; cases h
  | ok w =>
    simp only []
    rw [Access.bind_reads_of_ok _ _ w hw, GetChannelCount_reads_of_ok t _ w hw]
    rfl

theorem F32.value_bits90 : F32.value ⟨bits90⟩ = 90 := by
  norm_num [F32.value, bits90]

/-- Where the hypotheses on the target matter: were `Index` a plain enumeration, the
sum `k + SIZE` would be computed in 32 bits and wrap for `k = 2^32 - 2`. -/
theorem GetHeaderOffset_wraps_of_narrow_index :
    (GetHeaderOffset ⟨false, true, 64, 32⟩
      ⟨encodeWords ⟨false, true, 64, 32⟩ [0, 4294967294]⟩).result = .ok 0 := by
  decide

/-- Where the hypotheses on the target matter: with a 32-bit `size_t` the product
wraps for `k = 2^30 - 2`. -/
theorem GetHeaderOffset_wraps_of_narrow_size_t :
    (GetHeaderOffset ⟨false, true, 32, 32⟩
      ⟨encodeWords ⟨false, true, 32, 32⟩ [0, 1073741822]⟩).result = .ok 0 := by
  decide

theorem getElem?_eq_of_take_eq (m1 m2 : List Byte) (n i : Nat)
    (h : m1.take n = m2.take n) (hi : i < n) : m1[i]? = m2[i]? := by
  rw [← List.getElem?_take_of_lt hi, h, List.getElem?_take_of_lt hi]

theorem decodeAt_eq_of_take_eq (t : Target) (m1 m2 : List Byte) (n off : Nat)
    (h : m1.take n = m2.take n) (hoff : off + 4 ≤ n) :
    decodeAt t m1 off = decodeAt t m2 off := by
  unfold decodeAt
  rw [getElem?_eq_of_take_eq m1 m2 n off h (by omega),
    getElem?_eq_of_take_eq m1 m2 n (off + 1) h (by omega),
    getElem?_eq_of_take_eq m1 m2 n (off + 2) h (by omega),
    getElem?_eq_of_take_eq m1 m2 n (off + 3) h (by omega)]

theorem GetChannelCount_ok_iff (t : Target) (v : LidarHeaderView) (k : Nat) :
    (GetChannelCount t v).result = .ok k ↔ decodeAt t v._begin 4 = some k := by
  rw [GetChannelCount_result]
  cases decodeAt t v._begin 4 <;> simp [orOutOfBounds]

theorem GetHeaderOffset_of_count (t : Target) (hi : 33 ≤ t.indexBits) (hs : 35 ≤ t.sizeBits)
    (data : RawData) (k : Nat) (hk : decodeAt t data.bytes 4 = some k) :
    (GetHeaderOffset t data).result = .ok (4 * (k + 2)) := by
  have hsum : 2 ^ 33 ≤ 2 ^ t.sumBits :=
    Nat.pow_le_pow_right (by decide) (le_trans hi (Nat.le_max_right _ _))
  have hsize : 2 ^ 35 ≤ 2 ^ t.sizeBits := Nat.pow_le_pow_right (by decide) hs
  have hk32 := decodeAt_lt t _ _ _ hk
  rw [GetHeaderOffset_result, hk]
  simp only []
  rw [Nat.mod_eq_of_lt (show k + 2 < 2 ^ t.sumBits by omega), Nat.mod_eq_of_lt (by omega)]

theorem GetHeaderOffset_ok_inv (t : Target) (hi : 33 ≤ t.indexBits) (hs : 35 ≤ t.sizeBits)
    (data : RawData) (off : Nat) (h : (GetHeaderOffset t data).result = .ok off) :
    ∃ k, decodeAt t data.bytes 4 = some k ∧ k < 2 ^ 32 ∧ off = 4 * (k + 2) := by
  cases hd : decodeAt t data.bytes 4 with
  | none =>
    rw [GetHeaderOffset_result, hd] at h
    cases h
  | some k =>
    rw [GetHeaderOffset_of_count t hi hs data k hd] at h
    simp only [Except.ok.injEq] at h
    exact ⟨k, rfl, decodeAt_lt t _ _ _ hd, h.symm⟩

theorem GetPointCount_reads (t : Target) (v : LidarHeaderView) (c : Nat) :
    ∀ o ∈ (GetPointCount t v c).reads,
      (4 ≤ o ∧ o < 8)
      ∨ (4 * ((2 + c) % 2 ^ t.idxBits) ≤ o ∧ o < 4 * ((2 + c) % 2 ^ t.idxBits) + 4) := by
  intro o ho
  unfold GetPointCount at ho
  cases hd : t.debug with
  | false =>
    simp only [hd, Bool.false_eq_true, if_false] at ho
    rcases Access.bind_reads_sub _ _ o ho with h | ⟨_, _, h⟩
    · simp [pure, Access.ret] at h
    · right
      have := loadWord_reads t v._begin _ o h
      simpa only [Index.SIZE] using this
  | true =>
    simp only [hd, if_true] at ho
    rcases Access.bind_reads_sub _ _ o ho with h | ⟨n, _, h⟩
    · left
      exact GetChannelCount_reads t v o h
    · rcases Access.bind_reads_sub _ _ o h with h1 | ⟨_, _, h1⟩
      · unfold DEBUG_ASSERT at h1
        split at h1 <;> simp [Access.fail, Access.ret] at h1
      · right
        have := loadWord_reads t v._begin _ o h1
        simpa only [Index.SIZE] using this

/-! ## Serialization into an empty output buffer

Handed an empty output buffer, `Serialize` returns the header bytes followed by the
points bytes. The lemmas of this section are about that buffer. -/

/-- Round trip of the header through an empty output buffer. For a measurement whose
header words are `[a, k, c_0, ..., c_{k-1}]` (32-bit values, any points bytes, a header
that fits in the address space), the header view over the bytes that `Serialize`
returns for an empty output buffer yields the angle with bit pattern `a`, the channel
count `k`, and the point count `c_i` for every `i < k`. -/
theorem Serialize_roundtrip_header {Sensor : Type} (t : Target) (sensor : Sensor)
    (a : Nat) (cs : List Nat) (points : List Byte)
    (ha : a < 2 ^ 32) (hk : cs.length < 2 ^ 32) (hcs : ∀ c ∈ cs, c < 2 ^ 32)
    (hfit : (encodeWords t (a :: cs.length :: cs)).length < 2 ^ t.sizeBits) :
    (GetHorizontalAngle t (DeserializeHeader
        ⟨Serialize sensor ⟨encodeWords t (a :: cs.length :: cs), points⟩ []⟩)).result = .ok ⟨a⟩
    ∧ (GetChannelCount t (DeserializeHeader
        ⟨Serialize sensor ⟨encodeWords t (a :: cs.length :: cs), points⟩ []⟩)).result
        = .ok cs.length
    ∧ ∀ (i : Nat) (h : i < cs.length), (GetPointCount t (DeserializeHeader
        ⟨Serialize sensor ⟨encodeWords t (a :: cs.length :: cs), points⟩ []⟩) i).result
        = .ok cs[i] := by
  rw [Serialize_empty]
  rw [length_encodeWords] at hfit
  simp only [List.length_cons] at hfit
  have hpow := two_pow_sizeBits_le_idx t
  refine ⟨?_, ?_, ?_⟩
  · rw [GetHorizontalAngle_encodeWords, Nat.mod_eq_of_lt ha]
  · rw [GetChannelCount_encodeWords, Nat.mod_eq_of_lt hk]
  · intro i h
    rw [GetPointCount_encodeWords t a cs.length cs points i cs[i] (by simp [h])
      (by rw [Nat.mod_eq_of_lt hk]; exact h) (by omega),
      Nat.mod_eq_of_lt (hcs _ (List.getElem_mem h))]

/-- Example of the round trip: the header `[bits(90.0f), 3, 3, 0, 5]` on a 64-bit target. -/
theorem Serialize_roundtrip_header_witness :
    (1119092736 < 2 ^ 32 ∧ [3, 0, 5].length < 2 ^ 32 ∧ (∀ c ∈ [3, 0, 5], c < 2 ^ 32)
      ∧ (encodeWords Target.x86_64 (1119092736 :: [3, 0, 5].length :: [3, 0, 5])).length
          < 2 ^ Target.x86_64.sizeBits)
    ∧ (GetHorizontalAngle Target.x86_64 (DeserializeHeader
        ⟨Serialize () ⟨encodeWords Target.x86_64 (1119092736 :: [3, 0, 5].length :: [3, 0, 5]),
          [7, 7]⟩ []⟩)).result = .ok ⟨1119092736⟩
    ∧ (GetChannelCount Target.x86_64 (DeserializeHeader
        ⟨Serialize () ⟨encodeWords Target.x86_64 (1119092736 :: [3, 0, 5].length :: [3, 0, 5]),
          [7, 7]⟩ []⟩)).result = .ok 3
    ∧ (GetPointCount Target.x86_64 (DeserializeHeader
        ⟨Serialize () ⟨encodeWords Target.x86_64 (1119092736 :: [3, 0, 5].length :: [3, 0, 5]),
          [7, 7]⟩ []⟩) 2).result = .ok 5 :=
  have h := Serialize_roundtrip_header Target.x86_64 () 1119092736 [3, 0, 5] [7, 7]
    (by decide) (by decide) (by decide) (by decide)
  ⟨⟨by decide, by decide, by decide, by decide⟩, h.1, h.2.1, h.2.2 2 (by decide)⟩

/-- The header offset splits what `Serialize` puts into an empty output buffer. For a
measurement with the well-formed header `[w0, k, c_0, ..., c_{k-1}]` and points bytes
`P`, on a target where `k + SIZE` fits the type of the sum and the header fits in the
address space, `GetHeaderOffset` of the returned buffer `B` is the byte length of the
header, the first `GetHeaderOffset(B)` bytes of `B` are the header bytes and the bytes
from `GetHeaderOffset(B)` to the end are exactly `P`. -/
theorem Serialize_header_offset_splits {Sensor : Type} (t : Target) (sensor : Sensor)
    (w0 : Nat) (cs : List Nat) (P : List Byte)
    (hk : cs.length < 2 ^ 32)
    (hsum : cs.length + Index.SIZE < 2 ^ t.sumBits)
    (hfit : (encodeWords t (w0 :: cs.length :: cs)).length < 2 ^ t.sizeBits) :
    ∃ off : Nat,
      (GetHeaderOffset t
        ⟨Serialize sensor ⟨encodeWords t (w0 :: cs.length :: cs), P⟩ []⟩).result = .ok off
      ∧ off = (encodeWords t (w0 :: cs.length :: cs)).length
      ∧ (Serialize sensor ⟨encodeWords t (w0 :: cs.length :: cs), P⟩ []).take off
          = encodeWords t (w0 :: cs.length :: cs)
      ∧ (Serialize sensor ⟨encodeWords t (w0 :: cs.length :: cs), P⟩ []).drop off = P := by
  rw [Serialize_empty]
  have hlen : (encodeWords t (w0 :: cs.length :: cs)).length = 4 * (cs.length + 2) := by
    rw [length_encodeWords]; simp only [List.length_cons]
  rw [hlen] at hfit
  simp only [Index.SIZE] at hsum
  refine ⟨4 * (cs.length + 2), ?_, hlen.symm, ?_, ?_⟩
  · have := GetHeaderOffset_encodeWords t w0 cs.length cs P
      (by rw [Nat.mod_eq_of_lt hk]; exact hsum) (by rw [Nat.mod_eq_of_lt hk]; exact hfit)
    rw [Nat.mod_eq_of_lt hk] at this
    exact this
  · rw [← hlen, List.take_left]
  · rw [← hlen, List.drop_left]

/-- Example of the split: the header `[bits(90.0f), 3, 3, 0, 5]` with three points bytes. -/
theorem Serialize_header_offset_splits_witness :
    ([3, 0, 5].length < 2 ^ 32
      ∧ [3, 0, 5].length + Index.SIZE < 2 ^ Target.x86_64.sumBits
      ∧ (encodeWords Target.x86_64 (1119092736 :: [3, 0, 5].length :: [3, 0, 5])).length
          < 2 ^ Target.x86_64.sizeBits)
    ∧ ∃ off : Nat,
      (GetHeaderOffset Target.x86_64
        ⟨Serialize () ⟨encodeWords Target.x86_64 (1119092736 :: [3, 0, 5].length :: [3, 0, 5]),
          [10, 11, 12]⟩ []⟩).result = .ok off
      ∧ off = (encodeWords Target.x86_64 (1119092736 :: [3, 0, 5].length :: [3, 0, 5])).length
      ∧ (Serialize () ⟨encodeWords Target.x86_64 (1119092736 :: [3, 0, 5].length :: [3, 0, 5]),
          [10, 11, 12]⟩ []).take off
          = encodeWords Target.x86_64 (1119092736 :: [3, 0, 5].length :: [3, 0, 5])
      ∧ (Serialize () ⟨encodeWords Target.x86_64 (1119092736 :: [3, 0, 5].length :: [3, 0, 5]),
          [10, 11, 12]⟩ []).drop off = [10, 11, 12] :=
  ⟨⟨by decide, by decide, by decide⟩,
    Serialize_header_offset_splits Target.x86_64 () 1119092736 [3, 0, 5] [10, 11, 12]
      (by decide) (by decide) (by decide)⟩

/-- A measurement without channels, serialized into an empty output buffer. With
header words `[a, 0]` and no points the returned buffer has exactly `4 * SIZE = 8`
bytes; `GetHeaderOffset` of that buffer is 8, its whole length; `GetHorizontalAngle`,
`GetChannelCount` and `GetHeaderOffset` succeed on it and load only the byte offsets
`0 .. 3`, `4 .. 7` and `4 .. 7`, all below 8; no channel index is below the channel
count, and in a debug build `GetPointCount` fails its assertion for every channel. -/
theorem Serialize_zero_channels {Sensor : Type} (t : Target) (sensor : Sensor) (a : Nat)
    (hs : 4 ≤ t.sizeBits) :
    (Serialize sensor ⟨encodeWords t [a, 0], []⟩ []).length = 4 * Index.SIZE
    ∧ 4 * Index.SIZE = 8
    ∧ (GetHeaderOffset t ⟨Serialize sensor ⟨encodeWords t [a, 0], []⟩ []⟩).result = .ok 8
    ∧ (GetChannelCount t
        (DeserializeHeader ⟨Serialize sensor ⟨encodeWords t [a, 0], []⟩ []⟩)).result = .ok 0
    ∧ (GetHorizontalAngle t
        (DeserializeHeader ⟨Serialize sensor ⟨encodeWords t [a, 0], []⟩ []⟩)).result
        = .ok ⟨a % 2 ^ 32⟩
    ∧ (GetHorizontalAngle t
        (DeserializeHeader ⟨Serialize sensor ⟨encodeWords t [a, 0], []⟩ []⟩)).reads
        = [0, 1, 2, 3]
    ∧ (GetChannelCount t
        (DeserializeHeader ⟨Serialize sensor ⟨encodeWords t [a, 0], []⟩ []⟩)).reads
        = [4, 5, 6, 7]
    ∧ (GetHeaderOffset t ⟨Serialize sensor ⟨encodeWords t [a, 0], []⟩ []⟩).reads
        = [4, 5, 6, 7]
    ∧ (∀ o : Nat,
        o ∈ (GetHorizontalAngle t
            (DeserializeHeader ⟨Serialize sensor ⟨encodeWords t [a, 0], []⟩ []⟩)).reads
        ∨ o ∈ (GetChannelCount t
            (DeserializeHeader ⟨Serialize sensor ⟨encodeWords t [a, 0], []⟩ []⟩)).reads
        ∨ o ∈ (GetHeaderOffset t ⟨Serialize sensor ⟨encodeWords t [a, 0], []⟩ []⟩).reads →
        o < 8)
    ∧ (∀ c k : Nat, (GetChannelCount t
        (DeserializeHeader ⟨Serialize sensor ⟨encodeWords t [a, 0], []⟩ []⟩)).result = .ok k →
        ¬ c < k)
    ∧ (t.debug = true → ∀ c : Nat, (GetPointCount t
        (DeserializeHeader ⟨Serialize sensor ⟨encodeWords t [a, 0], []⟩ []⟩) c).result
        = .error .assertion) := by
  rw [Serialize_empty, List.append_nil]
  have hB : encodeWords t [a, 0] = encodeWords t (a :: 0 :: []) ++ [] := by
    rw [List.append_nil]
  have hcount : (GetChannelCount t (DeserializeHeader ⟨encodeWords t [a, 0]⟩)).result
      = .ok 0 := by
    rw [hB, GetChannelCount_encodeWords]; rfl
  have hangle : (GetHorizontalAngle t (DeserializeHeader ⟨encodeWords t [a, 0]⟩)).result
      = .ok ⟨a % 2 ^ 32⟩ := by
    rw [hB, GetHorizontalAngle_encodeWords]
  have h32 := two_pow_32_le_sum t
  have h4 : 2 ^ 4 ≤ 2 ^ t.sizeBits := Nat.pow_le_pow_right (by decide) hs
  have hoff : (GetHeaderOffset t ⟨encodeWords t [a, 0]⟩).result = .ok 8 := by
    rw [hB, GetHeaderOffset_encodeWords t a 0 [] []
      (by simp only [Nat.zero_mod]; omega) (by simp only [Nat.zero_mod]; omega)]
    rfl
  have hr1 := GetHorizontalAngle_reads_of_ok t _ _ hangle
  have hr2 := GetChannelCount_reads_of_ok t _ _ hcount
  have hr3 := GetHeaderOffset_reads_of_ok t _ _ hoff
  refine ⟨?_, rfl, hoff, hcount, hangle, hr1, hr2, hr3, ?_, ?_, ?_⟩
  · rw [length_encodeWords]; rfl
  · intro o ho
    rw [hr1, hr2, hr3] at ho
    simp only [List.mem_cons, List.mem_singleton, List.not_mem_nil, or_false] at ho
    omega
  · intro c k hk
    rw [hcount] at hk
    simp only [Except.ok.injEq] at hk
    omega
  · intro hd c
    exact GetPointCount_result_of_ge t _ c 0 hd hcount (Nat.zero_le c)

/-- Example without channels: angle word `bits(90.0f)` on the 64-bit target. -/
theorem Serialize_zero_channels_witness :
    4 ≤ Target.x86_64.sizeBits
    ∧ (Serialize () ⟨encodeWords Target.x86_64 [bits90, 0], []⟩ []).length = 4 * Index.SIZE
    ∧ (GetHeaderOffset Target.x86_64
        ⟨Serialize () ⟨encodeWords Target.x86_64 [bits90, 0], []⟩ []⟩).result = .ok 8 :=
  have h := Serialize_zero_channels Target.x86_64 () bits90 (by decide)
  ⟨by decide, h.1, h.2.2.1⟩

/-- The measurement with angle `90.0f` and channel point counts `[3, 0, 5]`, whose
header is the five words `[bits(90.0f), 3, 3, 0, 5]` (20 bytes), serialized with any
payload region into an empty output buffer: `GetHeaderOffset` of the returned buffer
is 20, its length is 20 plus the payload bytes, and on its bytes
`GetChannelCount() = 3`, `GetPointCount(0) = 3`, `GetPointCount(1) = 0` and
`GetPointCount(2) = 5`. -/
theorem Serialize_concrete_scenario {Sensor : Type} (t : Target) (sensor : Sensor)
    (payload : List Byte) (hs : 5 ≤ t.sizeBits) :
    (encodeWords t [bits90, 3, 3, 0, 5]).length = 4 * (Index.SIZE + 3)
    ∧ (GetHeaderOffset t
        ⟨Serialize sensor ⟨encodeWords t [bits90, 3, 3, 0, 5], payload⟩ []⟩).result = .ok 20
    ∧ (Serialize sensor ⟨encodeWords t [bits90, 3, 3, 0, 5], payload⟩ []).length
        = 20 + payload.length
    ∧ (GetHorizontalAngle t (DeserializeHeader
        ⟨Serialize sensor ⟨encodeWords t [bits90, 3, 3, 0, 5], payload⟩ []⟩)).result
        = .ok ⟨bits90⟩
    ∧ (GetChannelCount t (DeserializeHeader
        ⟨Serialize sensor ⟨encodeWords t [bits90, 3, 3, 0, 5], payload⟩ []⟩)).result = .ok 3
    ∧ (GetPointCount t (DeserializeHeader
        ⟨Serialize sensor ⟨encodeWords t [bits90, 3, 3, 0, 5], payload⟩ []⟩) 0).result = .ok 3
    ∧ (GetPointCount t (DeserializeHeader
        ⟨Serialize sensor ⟨encodeWords t [bits90, 3, 3, 0, 5], payload⟩ []⟩) 1).result = .ok 0
    ∧ (GetPointCount t (DeserializeHeader
        ⟨Serialize sensor ⟨encodeWords t [bits90, 3, 3, 0, 5], payload⟩ []⟩) 2).result
        = .ok 5 := by
  rw [Serialize_empty]
  have h32 := two_pow_32_le_sum t
  have h5 : 2 ^ 5 ≤ 2 ^ t.sizeBits := Nat.pow_le_pow_right (by decide) hs
  have hidx := two_pow_sizeBits_le_idx t
  have hlen : (encodeWords t [bits90, 3, 3, 0, 5]).length = 20 := by
    rw [length_encodeWords]; rfl
  refine ⟨by rw [hlen]; rfl, ?_, ?_, ?_, ?_, ?_, ?_, ?_⟩
  · rw [GetHeaderOffset_encodeWords t bits90 3 [3, 0, 5] payload
      (by norm_num; omega) (by norm_num; omega)]
    rfl
  · rw [List.length_append, hlen]
  · rw [GetHorizontalAngle_encodeWords]; rfl
  · rw [GetChannelCount_encodeWords]; rfl
  · rw [GetPointCount_encodeWords t bits90 3 [3, 0, 5] payload 0 3 rfl (by norm_num)
      (by omega)]
    rfl
  · rw [GetPointCount_encodeWords t bits90 3 [3, 0, 5] payload 1 0 rfl (by norm_num)
      (by omega)]
    rfl
  · rw [GetPointCount_encodeWords t bits90 3 [3, 0, 5] payload 2 5 rfl (by norm_num)
      (by omega)]
    rfl

/-- Example of the scenario: the 64-bit target and a payload of eight points of sixteen
bytes. -/
theorem Serialize_concrete_scenario_witness :
    5 ≤ Target.x86_64.sizeBits
    ∧ (GetHeaderOffset Target.x86_64
        ⟨Serialize () ⟨encodeWords Target.x86_64 [bits90, 3, 3, 0, 5],
          List.replicate 128 0⟩ []⟩).result = .ok 20
    ∧ (Serialize () ⟨encodeWords Target.x86_64 [bits90, 3, 3, 0, 5],
          List.replicate 128 0⟩ []).length = 20 + (List.replicate 128 (0 : Byte)).length
    ∧ (GetPointCount Target.x86_64 (DeserializeHeader
        ⟨Serialize () ⟨encodeWords Target.x86_64 [bits90, 3, 3, 0, 5],
          List.replicate 128 0⟩ []⟩) 2).result = .ok 5 :=
  have h := Serialize_concrete_scenario Target.x86_64 () (List.replicate 128 0) (by decide)
  ⟨by decide, h.2.1, h.2.2.1, h.2.2.2.2.2.2.2⟩

/-! ## The claims -/

/-- C3: offset correctness. On a target where the sum `k + SIZE` is computed in at
least 33 bits and `size_t` has at least 35 bits (both are 64 on the usual targets),
`GetHeaderOffset` is exactly `4 * (k + SIZE)` for the decoded channel count `k`,
with no wrap-around; every buffer of at least 8 bytes has such a `k`, and every
`k` below `2^32` is the channel count of some buffer. -/
theorem GetHeaderOffset_exact (t : Target) (hi : 33 ≤ t.indexBits) (hs : 35 ≤ t.sizeBits) :
    (∀ (data : RawData) (k : Nat),
        (GetChannelCount t (DeserializeHeader data)).result = .ok k →
        k < 2 ^ 32 ∧ (GetHeaderOffset t data).result = .ok (4 * (k + Index.SIZE)))
    ∧ (∀ data : RawData, 8 ≤ data.bytes.length →
        ∃ k, (GetChannelCount t (DeserializeHeader data)).result = .ok k)
    ∧ (∀ (k a : Nat) (rest : List Byte), k < 2 ^ 32 →
        (GetChannelCount t (DeserializeHeader ⟨encodeWords t [a, k] ++ rest⟩)).result = .ok k
        ∧ (GetHeaderOffset t ⟨encodeWords t [a, k] ++ rest⟩).result
            = .ok (4 * (k + Index.SIZE)))
    ∧ Index.SIZE = 2 := by
  have hsum : 2 ^ 33 ≤ 2 ^ t.sumBits :=
    Nat.pow_le_pow_right (by decide) (le_trans hi (Nat.le_max_right _ _))
  have hsize : 2 ^ 35 ≤ 2 ^ t.sizeBits := Nat.pow_le_pow_right (by decide) hs
  have key : ∀ (data : RawData) (k : Nat),
      (GetChannelCount t (DeserializeHeader data)).result = .ok k →
      k < 2 ^ 32 ∧ (GetHeaderOffset t data).result = .ok (4 * (k + Index.SIZE)) := by
    intro data k hk
    rw [GetChannelCount_result] at hk
    simp only [DeserializeHeader, RawData.begin] at hk
    rw [GetHeaderOffset_result]
    cases hd : decodeAt t data.bytes 4 with
    | none => rw [hd] at hk; cases hk
    | some n =>
      rw [hd] at hk
      simp only [orOutOfBounds, Except.ok.injEq] at hk
      subst hk
      have hn := decodeAt_lt t _ _ _ hd
      refine ⟨hn, ?_⟩
      simp only [Index.SIZE]
      rw [Nat.mod_eq_of_lt (show n + 2 < 2 ^ t.sumBits by omega), Nat.mod_eq_of_lt (by omega)]
  refine ⟨key, ?_, ?_, rfl⟩
  · intro data hlen
    obtain ⟨w, hw⟩ := decodeAt_of_le t data.bytes 4 (by omega)
    exact ⟨w, by rw [GetChannelCount_result]; simp [DeserializeHeader, RawData.begin, hw,
      orOutOfBounds]⟩
  · intro k a rest hk
    have hcount := GetChannelCount_encodeWords t a k [] rest
    rw [Nat.mod_eq_of_lt hk] at hcount
    exact ⟨hcount, (key _ k hcount).2⟩

/-- Witness of C3: the 64-bit target and the largest channel count, `2^32 - 1`. -/
theorem GetHeaderOffset_exact_witness :
    (33 ≤ Target.x86_64.indexBits ∧ 35 ≤ Target.x86_64.sizeBits ∧ 4294967295 < 2 ^ 32)
    ∧ (GetHeaderOffset Target.x86_64 ⟨encodeWords Target.x86_64 [0, 4294967295] ++ []⟩).result
        = .ok (4 * (4294967295 + Index.SIZE)) :=
  ⟨⟨by decide, by decide, by decide⟩,
    ((GetHeaderOffset_exact Target.x86_64 (by decide) (by decide)).2.2.1
      4294967295 0 [] (by decide)).2⟩

/-- C5: `Serialize` appends. For an output buffer of length `n` and a measurement
with header bytes `H` and points bytes `P`, the returned buffer has length
`n + |H| + |P|`. -/
theorem Serialize_length {Sensor : Type} (sensor : Sensor) (H P : List Byte)
    (output : Buffer) :
    (Serialize sensor ⟨H, P⟩ output).length = output.length + H.length + P.length := by
  rw [Serialize_eq]
  simp only [List.length_append]
  omega

/-- C6: wire position of the point counts. On a target whose `size_t` has at least
33 bits, for every buffer with decoded channel count `k` and every channel `i < k`,
`GetPointCount(i)` is the word at word index `SIZE + i`: the unsigned integer decoded
from the four bytes at byte offsets `8 + 4*i .. 8 + 4*i + 3` (a value whenever the
buffer holds those bytes); and `GetChannelCount()` is the word decoded from the bytes
at offsets `4 .. 7`. -/
theorem GetPointCount_wire_position (t : Target) (hs : 33 ≤ t.sizeBits) (data : RawData)
    (k i : Nat) (hk : (GetChannelCount t (DeserializeHeader data)).result = .ok k)
    (hi : i < k) :
    (GetPointCount t (DeserializeHeader data) i).result
        = orOutOfBounds (decodeAt t data.bytes (8 + 4 * i))
    ∧ 8 + 4 * i = 4 * (Index.SIZE + i)
    ∧ (8 + 4 * i + 4 ≤ data.bytes.length →
        ∃ w, decodeAt t data.bytes (8 + 4 * i) = some w
          ∧ (GetPointCount t (DeserializeHeader data) i).result = .ok w)
    ∧ decodeAt t data.bytes 4 = some k := by
  have hk4 : decodeAt t data.bytes 4 = some k := by
    rw [GetChannelCount_result] at hk
    simp only [DeserializeHeader, RawData.begin] at hk
    cases hd : decodeAt t data.bytes 4 with
    | none => rw [hd] at hk; cases hk
    | some n =>
      rw [hd] at hk
      simp only [orOutOfBounds, Except.ok.injEq] at hk
      rw [hk]
  have hk32 := decodeAt_lt t _ _ _ hk4
  have hpow : 2 ^ 33 ≤ 2 ^ t.idxBits :=
    le_trans (Nat.pow_le_pow_right (by decide) hs) (two_pow_sizeBits_le_idx t)
  have hres : (GetPointCount t (DeserializeHeader data) i).result
      = orOutOfBounds (decodeAt t data.bytes (8 + 4 * i)) := by
    rw [GetPointCount_result_of_lt t _ i k hk hi, Nat.mod_eq_of_lt (by omega)]
    simp only [DeserializeHeader, RawData.begin]
    rw [show 4 * (2 + i) = 8 + 4 * i by omega]
  refine ⟨hres, by simp only [Index.SIZE]; omega, ?_, hk4⟩
  intro hlen
  obtain ⟨w, hw⟩ := decodeAt_of_le t data.bytes (8 + 4 * i) hlen
  exact ⟨w, hw, by rw [hres, hw]; rfl⟩

/-- Witness of C6: channel 2 of the header `[bits(90.0f), 3, 3, 0, 5]`. -/
theorem GetPointCount_wire_position_witness :
    (33 ≤ Target.x86_64.sizeBits
      ∧ (GetChannelCount Target.x86_64 (DeserializeHeader
          ⟨encodeWords Target.x86_64 [1119092736, 3, 3, 0, 5]⟩)).result = .ok 3
      ∧ 2 < 3)
    ∧ (GetPointCount Target.x86_64 (DeserializeHeader
          ⟨encodeWords Target.x86_64 [1119092736, 3, 3, 0, 5]⟩) 2).result
        = orOutOfBounds (decodeAt Target.x86_64
            (encodeWords Target.x86_64 [1119092736, 3, 3, 0, 5]) (8 + 4 * 2)) :=
  ⟨⟨by decide, by decide, by decide⟩,
    (GetPointCount_wire_position Target.x86_64 (by decide)
      ⟨encodeWords Target.x86_64 [1119092736, 3, 3, 0, 5]⟩ 3 2 (by decide) (by decide)).1⟩

/-- C8: angle pass-through. For every 32-bit pattern `w` stored in the angle word of a
buffer (NaNs, infinities and denormals included), `GetHorizontalAngle` returns the
float whose bit pattern is exactly `w`; for any four bytes at the start of a buffer it
returns the float whose bit pattern they represent, with no validation or
normalisation. -/
theorem GetHorizontalAngle_passthrough (t : Target) :
    (∀ (w : Nat) (rest : List Byte), w < 2 ^ 32 →
        (GetHorizontalAngle t (DeserializeHeader ⟨encodeWord t w ++ rest⟩)).result = .ok ⟨w⟩)
    ∧ (∀ (b0 b1 b2 b3 : Byte) (rest : List Byte),
        (GetHorizontalAngle t (DeserializeHeader ⟨b0 :: b1 :: b2 :: b3 :: rest⟩)).result
          = .ok ⟨decodeWord t b0 b1 b2 b3⟩) := by
  constructor
  · intro w rest hw
    have := GetHorizontalAngle_encodeWords t w [] rest
    simp only [encodeWords, List.append_nil] at this
    rw [this, Nat.mod_eq_of_lt hw]
  · intro b0 b1 b2 b3 rest
    rw [GetHorizontalAngle_result]
    simp [DeserializeHeader, RawData.begin, decodeAt]

/-- Witness of C8: the signalling NaN `0x7FA00001` and the all-ones pattern. -/
theorem GetHorizontalAngle_passthrough_witness :
    (2141192193 < 2 ^ 32 ∧ 4294967295 < 2 ^ 32)
    ∧ (GetHorizontalAngle Target.x86_64
        (DeserializeHeader ⟨encodeWord Target.x86_64 2141192193 ++ [1, 2]⟩)).result
        = .ok ⟨2141192193⟩
    ∧ (GetHorizontalAngle Target.x86_64
        (DeserializeHeader ⟨encodeWord Target.x86_64 4294967295 ++ []⟩)).result
        = .ok ⟨4294967295⟩ :=
  ⟨⟨by decide, by decide⟩,
    (GetHorizontalAngle_passthrough Target.x86_64).1 2141192193 [1, 2] (by decide),
    (GetHorizontalAngle_passthrough Target.x86_64).1 4294967295 [] (by decide)⟩

/-- C10: the precondition of `GetPointCount` as a fail-fast check. In a debug build,
for every buffer and every channel index `c`, `GetPointCount(c)` fails its assertion
if and only if the channel count decodes to some `k` with `c >= k`; in particular it
fails for every `c` when the channel count is 0; and when it does not fail the
assertion its outcome is that of loading the word at index `SIZE + c` (the value
decoded from the bytes at offsets `4 * (SIZE + c) ..`, on a target whose `size_t` has
at least 33 bits). -/
theorem GetPointCount_assertion (t : Target) (hd : t.debug = true) (hs : 33 ≤ t.sizeBits)
    (v : LidarHeaderView) (c : Nat) :
    ((GetPointCount t v c).result = .error .assertion
        ↔ ∃ k, (GetChannelCount t v).result = .ok k ∧ c ≥ k)
    ∧ ((GetChannelCount t v).result = .ok 0 →
        (GetPointCount t v c).result = .error .assertion)
    ∧ ((GetPointCount t v c).result ≠ .error .assertion →
        (GetPointCount t v c).result
          = orOutOfBounds (decodeAt t v._begin (4 * (Index.SIZE + c)))) := by
  have hpow : 2 ^ 33 ≤ 2 ^ t.idxBits :=
    le_trans (Nat.pow_le_pow_right (by decide) hs) (two_pow_sizeBits_le_idx t)
  cases hcnt : (GetChannelCount t v).result with
  | error f =>
    have hres := GetPointCount_result_of_fault t v c f hd hcnt
    have hnone : decodeAt t v._begin 4 = none := by
      rw [GetChannelCount_result] at hcnt
      cases hd4 : decodeAt t v._begin 4 with
      | none => rfl
      | some w => rw [hd4] at hcnt; cases hcnt
    have hf : f = .outOfBounds := by
      rw [GetChannelCount_result, hnone] at hcnt
      simp only [orOutOfBounds, Except.error.injEq] at hcnt
      exact hcnt.symm
    subst hf
    have hshort : v._begin.length < 4 + 4 := by
      by_contra hge
      obtain ⟨w, hw⟩ := decodeAt_of_le t v._begin 4 (by omega)
      rw [hw] at hnone; cases hnone
    refine ⟨?_, ?_, ?_⟩
    · rw [hres]
      constructor
      · intro h; cases h
      · rintro ⟨k, hk, _⟩; cases hk
    · intro h; cases h
    · intro _
      rw [hres, decodeAt_none_of_lt t v._begin _ (by simp only [Index.SIZE]; omega)]
      rfl
  | ok k =>
    have hk4 : decodeAt t v._begin 4 = some k := by
      rw [GetChannelCount_result] at hcnt
      cases hd4 : decodeAt t v._begin 4 with
      | none => rw [hd4] at hcnt; cases hcnt
      | some n =>
        rw [hd4] at hcnt
        simp only [orOutOfBounds, Except.ok.injEq] at hcnt
        rw [hcnt]
    have hk32 := decodeAt_lt t _ _ _ hk4
    by_cases hc : c < k
    · have hres := GetPointCount_result_of_lt t v c k hcnt hc
      rw [Nat.mod_eq_of_lt (by omega)] at hres
      have hne : (GetPointCount t v c).result ≠ .error .assertion := by
        rw [hres]
        cases decodeAt t v._begin (4 * (2 + c)) <;> simp [orOutOfBounds]
      refine ⟨?_, ?_, ?_⟩
      · constructor
        · intro h; exact absurd h hne
        · rintro ⟨k2, hk2, hge⟩
          simp only [Except.ok.injEq] at hk2
          omega
      · intro h0
        simp only [Except.ok.injEq] at h0
        omega
      · intro _
        rw [hres]; rfl
    · have hres := GetPointCount_result_of_ge t v c k hd hcnt (by omega)
      refine ⟨?_, ?_, ?_⟩
      · constructor
        · intro _; exact ⟨k, rfl, by omega⟩
        · intro _; exact hres
      · intro _; exact hres
      · intro hne; exact absurd hres hne

/-- Witness of C10: channel 3 of a three-channel header fails the assertion, channel 2
returns its point count. -/
theorem GetPointCount_assertion_witness :
    (Target.x86_64.debug = true ∧ 33 ≤ Target.x86_64.sizeBits)
    ∧ ((GetPointCount Target.x86_64 ⟨encodeWords Target.x86_64 [bits90, 3, 3, 0, 5]⟩ 3).result
          = .error .assertion
        ↔ ∃ k, (GetChannelCount Target.x86_64
            ⟨encodeWords Target.x86_64 [bits90, 3, 3, 0, 5]⟩).result = .ok k ∧ 3 ≥ k)
    ∧ (GetPointCount Target.x86_64 ⟨encodeWords Target.x86_64 [bits90, 3, 3, 0, 5]⟩ 3).result
          = .error .assertion
    ∧ (GetPointCount Target.x86_64 ⟨encodeWords Target.x86_64 [bits90, 3, 3, 0, 5]⟩ 2).result
          = .ok 5 :=
  ⟨⟨by decide, by decide⟩,
    (GetPointCount_assertion Target.x86_64 (by decide) (by decide)
      ⟨encodeWords Target.x86_64 [bits90, 3, 3, 0, 5]⟩ 3).1,
    by decide, by decide⟩

/-- C11: the sensor context is unused. For any two sensor arguments, of any two
sensor types, the same measurement and the same output buffer, `Serialize` returns
byte-identical buffers. -/
theorem Serialize_sensor_unused {Sensor1 Sensor2 : Type} (s1 : Sensor1) (s2 : Sensor2)
    (M : data.LidarData) (output : Buffer) :
    Serialize s1 M output = Serialize s2 M output := by
  rfl

/-- C12: header reads stay inside the header. On a target where `GetHeaderOffset` does
not wrap (sum in at least 33 bits, `size_t` of at least 35 bits), for every buffer at
least `GetHeaderOffset(buffer)` bytes long, `GetHorizontalAngle()`, `GetChannelCount()`
and `GetPointCount(c)` for every `c < GetChannelCount()` load only byte offsets strictly
below `GetHeaderOffset(buffer)`, and each of them returns a value: the out-of-bounds
fault of the bounds-checked loads is not reached. -/
theorem header_reads_inside_header (t : Target) (hi : 33 ≤ t.indexBits) (hs : 35 ≤ t.sizeBits)
    (data : RawData) (off : Nat)
    (hoff : (GetHeaderOffset t data).result = .ok off) (hlen : off ≤ data.bytes.length) :
    ((∀ o ∈ (GetHorizontalAngle t (DeserializeHeader data)).reads, o < off)
      ∧ ∃ f, (GetHorizontalAngle t (DeserializeHeader data)).result = .ok f)
    ∧ ((∀ o ∈ (GetChannelCount t (DeserializeHeader data)).reads, o < off)
      ∧ ∃ k, (GetChannelCount t (DeserializeHeader data)).result = .ok k)
    ∧ (∀ c k : Nat, (GetChannelCount t (DeserializeHeader data)).result = .ok k → c < k →
        (∀ o ∈ (GetPointCount t (DeserializeHeader data) c).reads, o < off)
        ∧ ∃ w, (GetPointCount t (DeserializeHeader data) c).result = .ok w) := by
  obtain ⟨k, hk, hk32, rfl⟩ := GetHeaderOffset_ok_inv t hi hs data off hoff
  have hcount : (GetChannelCount t (DeserializeHeader data)).result = .ok k :=
    (GetChannelCount_ok_iff t _ k).mpr hk
  have hpow : 2 ^ 33 ≤ 2 ^ t.idxBits :=
    le_trans (Nat.pow_le_pow_right (by decide) (by omega)) (two_pow_sizeBits_le_idx t)
  refine ⟨⟨?_, ?_⟩, ⟨?_, k, hcount⟩, ?_⟩
  · intro o ho
    have := GetHorizontalAngle_reads t _ o ho
    omega
  · obtain ⟨w, hw⟩ := decodeAt_of_le t data.bytes 0 (by omega)
    refine ⟨⟨w⟩, ?_⟩
    rw [GetHorizontalAngle_result]
    simp only [DeserializeHeader, RawData.begin, hw]
  · intro o ho
    have := GetChannelCount_reads t _ o ho
    omega
  · intro c k2 hk2 hc
    rw [hcount] at hk2
    simp only [Except.ok.injEq] at hk2
    subst hk2
    have hmod : (2 + c) % 2 ^ t.idxBits = 2 + c := Nat.mod_eq_of_lt (by omega)
    constructor
    · intro o ho
      have := GetPointCount_reads t _ c o ho
      rw [hmod] at this
      omega
    · obtain ⟨w, hw⟩ := decodeAt_of_le t data.bytes (4 * (2 + c)) (by omega)
      refine ⟨w, ?_⟩
      rw [GetPointCount_result_of_lt t _ c k hcount hc, hmod]
      simp only [DeserializeHeader, RawData.begin, hw]
      rfl

/-- Witness of C12: the 20-byte header `[bits(90.0f), 3, 3, 0, 5]` followed by two
payload bytes, on the 64-bit target. -/
theorem header_reads_inside_header_witness :
    (33 ≤ Target.x86_64.indexBits ∧ 35 ≤ Target.x86_64.sizeBits
      ∧ (GetHeaderOffset Target.x86_64
          ⟨encodeWords Target.x86_64 [bits90, 3, 3, 0, 5] ++ [1, 2]⟩).result = .ok 20
      ∧ 20 ≤ (encodeWords Target.x86_64 [bits90, 3, 3, 0, 5] ++ [1, 2]).length)
    ∧ (∀ o ∈ (GetPointCount Target.x86_64 (DeserializeHeader
          ⟨encodeWords Target.x86_64 [bits90, 3, 3, 0, 5] ++ [1, 2]⟩) 2).reads, o < 20)
    ∧ ∃ w, (GetPointCount Target.x86_64 (DeserializeHeader
          ⟨encodeWords Target.x86_64 [bits90, 3, 3, 0, 5] ++ [1, 2]⟩) 2).result = .ok w :=
  ⟨⟨by decide, by decide, by decide, by decide⟩,
    (header_reads_inside_header Target.x86_64 (by decide) (by decide)
      ⟨encodeWords Target.x86_64 [bits90, 3, 3, 0, 5] ++ [1, 2]⟩ 20 (by decide)
      (by decide)).2.2 2 3 (by decide) (by decide)⟩

/-- C13: header decoding is independent of the points payload. On a target where
`GetHeaderOffset` does not wrap, if two buffers agree on their first
`GetHeaderOffset` bytes (the offset computed on the first one; the statement is
symmetric in the two buffers), then `GetHeaderOffset`, `GetHorizontalAngle`,
`GetChannelCount` and `GetPointCount(c)` for every `c < GetChannelCount()` have the
same outcome on both, whatever the bytes after the header are. -/
theorem header_decoding_independent_of_payload (t : Target)
    (hi : 33 ≤ t.indexBits) (hs : 35 ≤ t.sizeBits) (d1 d2 : RawData) (off : Nat)
    (hoff : (GetHeaderOffset t d1).result = .ok off)
    (hagree : d1.bytes.take off = d2.bytes.take off) :
    (GetHeaderOffset t d2).result = (GetHeaderOffset t d1).result
    ∧ (GetHorizontalAngle t (DeserializeHeader d2)).result
        = (GetHorizontalAngle t (DeserializeHeader d1)).result
    ∧ (GetChannelCount t (DeserializeHeader d2)).result
        = (GetChannelCount t (DeserializeHeader d1)).result
    ∧ (∀ c k : Nat, (GetChannelCount t (DeserializeHeader d1)).result = .ok k → c < k →
        (GetPointCount t (DeserializeHeader d2) c).result
          = (GetPointCount t (DeserializeHeader d1) c).result) := by
  obtain ⟨k, hk, hk32, rfl⟩ := GetHeaderOffset_ok_inv t hi hs d1 off hoff
  have h4 : decodeAt t d2.bytes 4 = decodeAt t d1.bytes 4 :=
    (decodeAt_eq_of_take_eq t d1.bytes d2.bytes _ 4 hagree (by omega)).symm
  have h0 : decodeAt t d2.bytes 0 = decodeAt t d1.bytes 0 :=
    (decodeAt_eq_of_take_eq t d1.bytes d2.bytes _ 0 hagree (by omega)).symm
  have hc1 : (GetChannelCount t (DeserializeHeader d1)).result = .ok k :=
    (GetChannelCount_ok_iff t _ k).mpr hk
  have hc2 : (GetChannelCount t (DeserializeHeader d2)).result = .ok k :=
    (GetChannelCount_ok_iff t _ k).mpr (by rw [← hk]; exact h4)
  have hpow : 2 ^ 33 ≤ 2 ^ t.idxBits :=
    le_trans (Nat.pow_le_pow_right (by decide) (by omega)) (two_pow_sizeBits_le_idx t)
  refine ⟨?_, ?_, ?_, ?_⟩
  · rw [GetHeaderOffset_result, GetHeaderOffset_result, h4]
  · rw [GetHorizontalAngle_result, GetHorizontalAngle_result]
    simp only [DeserializeHeader, RawData.begin, h0]
  · rw [hc1, hc2]
  · intro c k2 hk2 hc
    rw [hc1] at hk2
    simp only [Except.ok.injEq] at hk2
    subst hk2
    have hmod : (2 + c) % 2 ^ t.idxBits = 2 + c := Nat.mod_eq_of_lt (by omega)
    rw [GetPointCount_result_of_lt t _ c k hc1 hc, GetPointCount_result_of_lt t _ c k hc2 hc,
      hmod]
    simp only [DeserializeHeader, RawData.begin]
    rw [decodeAt_eq_of_take_eq t d1.bytes d2.bytes _ (4 * (2 + c)) hagree (by omega)]

/-- Witness of C13: the header `[bits(90.0f), 3, 3, 0, 5]` followed by two different
payloads. -/
theorem header_decoding_independent_of_payload_witness :
    (33 ≤ Target.x86_64.indexBits ∧ 35 ≤ Target.x86_64.sizeBits
      ∧ (GetHeaderOffset Target.x86_64
          ⟨encodeWords Target.x86_64 [bits90, 3, 3, 0, 5] ++ [1, 2]⟩).result = .ok 20
      ∧ (encodeWords Target.x86_64 [bits90, 3, 3, 0, 5] ++ [1, 2]).take 20
          = (encodeWords Target.x86_64 [bits90, 3, 3, 0, 5] ++ [9, 8, 7]).take 20)
    ∧ (GetHeaderOffset Target.x86_64
          ⟨encodeWords Target.x86_64 [bits90, 3, 3, 0, 5] ++ [9, 8, 7]⟩).result
        = (GetHeaderOffset Target.x86_64
          ⟨encodeWords Target.x86_64 [bits90, 3, 3, 0, 5] ++ [1, 2]⟩).result
    ∧ (GetPointCount Target.x86_64 (DeserializeHeader
          ⟨encodeWords Target.x86_64 [bits90, 3, 3, 0, 5] ++ [9, 8, 7]⟩) 2).result
        = (GetPointCount Target.x86_64 (DeserializeHeader
          ⟨encodeWords Target.x86_64 [bits90, 3, 3, 0, 5] ++ [1, 2]⟩) 2).result :=
  have h := header_decoding_independent_of_payload Target.x86_64 (by decide) (by decide)
    ⟨encodeWords Target.x86_64 [bits90, 3, 3, 0, 5] ++ [1, 2]⟩
    ⟨encodeWords Target.x86_64 [bits90, 3, 3, 0, 5] ++ [9, 8, 7]⟩ 20 (by decide) (by decide)
  ⟨⟨by decide, by decide, by decide, by decide⟩, h.1, h.2.2.2 2 3 (by decide) (by decide)⟩

/-- C14: shape of the header offset. On a target where `GetHeaderOffset` does not wrap,
for every buffer it returns a multiple of 4 that is at least `4 * SIZE = 8`, so the
points region starts on a word boundary after the two fixed words; and it is strictly
increasing in the decoded channel count, so buffers with different channel counts have
different header offsets. -/
theorem GetHeaderOffset_shape (t : Target) (hi : 33 ≤ t.indexBits) (hs : 35 ≤ t.sizeBits) :
    (∀ (data : RawData) (off : Nat), (GetHeaderOffset t data).result = .ok off →
        4 ∣ off ∧ 4 * Index.SIZE ≤ off ∧ 4 * Index.SIZE = 8)
    ∧ (∀ data : RawData, 8 ≤ data.bytes.length →
        ∃ off, (GetHeaderOffset t data).result = .ok off)
    ∧ (∀ (d1 d2 : RawData) (k1 k2 o1 o2 : Nat),
        (GetChannelCount t (DeserializeHeader d1)).result = .ok k1 →
        (GetChannelCount t (DeserializeHeader d2)).result = .ok k2 →
        (GetHeaderOffset t d1).result = .ok o1 →
        (GetHeaderOffset t d2).result = .ok o2 →
        (k1 < k2 → o1 < o2) ∧ (k1 ≠ k2 → o1 ≠ o2)) := by
  refine ⟨?_, ?_, ?_⟩
  · intro data off hoff
    obtain ⟨k, _, _, rfl⟩ := GetHeaderOffset_ok_inv t hi hs data off hoff
    exact ⟨Dvd.intro _ rfl, by simp only [Index.SIZE]; omega, rfl⟩
  · intro data hlen
    obtain ⟨k, hk⟩ := decodeAt_of_le t data.bytes 4 (by omega)
    exact ⟨_, GetHeaderOffset_of_count t hi hs data k hk⟩
  · intro d1 d2 k1 k2 o1 o2 hk1 hk2 ho1 ho2
    have h1 := (GetChannelCount_ok_iff t _ k1).mp hk1
    have h2 := (GetChannelCount_ok_iff t _ k2).mp hk2
    simp only [DeserializeHeader, RawData.begin] at h1 h2
    rw [GetHeaderOffset_of_count t hi hs d1 k1 h1] at ho1
    rw [GetHeaderOffset_of_count t hi hs d2 k2 h2] at ho2
    simp only [Except.ok.injEq] at ho1 ho2
    subst ho1 ho2
    constructor <;> intro h <;> omega

/-- Witness of C14: the largest channel count, `2^32 - 1`, on the 64-bit target. -/
theorem GetHeaderOffset_shape_witness :
    (33 ≤ Target.x86_64.indexBits ∧ 35 ≤ Target.x86_64.sizeBits
      ∧ (GetHeaderOffset Target.x86_64
          ⟨encodeWords Target.x86_64 [0, 4294967295]⟩).result = .ok 17179869188)
    ∧ 4 ∣ 17179869188 ∧ 4 * Index.SIZE ≤ 17179869188 :=
  have h := (GetHeaderOffset_shape Target.x86_64 (by decide) (by decide)).1
    ⟨encodeWords Target.x86_64 [0, 4294967295]⟩ 17179869188 (by decide)
  ⟨⟨by decide, by decide, by decide⟩, h.1, h.2.1⟩

end carla
